import Mathlib

/-!
# helm update-config: the configuration merge and the release locator

A shallow embedding of `main.go`: the recursive merge `mergeValues` of the
overrides given on the command line into the stored configuration of a
release, and the command body `updateConfigCommand.run` that locates the
release, merges and submits.
-/

namespace HelmUpdateConfig

/-! ## Data model -/

/-- Dynamic key of a Go `map[interface{}]interface{}`: the YAML decoder yields
string, integer, boolean or null keys.  A key of `map[string]interface{}` is a
plain `String`; it is converted to `Key.str` when it indexes the base map. -/
inductive Key where
  | str (s : String)
  | int (i : Int)
  | bool (b : Bool)
  | null
  deriving DecidableEq, Repr

/-- Dynamic Go value held in an `interface{}`.  The two map constructors are the
two distinct Go types the merge tells apart with its type assertions:
`smap` is `map[string]interface{}` (what the override parser builds) and
`imap` is `map[interface{}]interface{}` (what the YAML decoder builds).
A map is kept as the list of its entries; a map stored inside a tree is an
allocated map, as both producers allocate every map they build.  Scalars of
other dynamic types (floats) behave as the scalars listed here: the merge
inspects a value by its two type assertions only. -/
inductive Value where
  | null
  | bool (b : Bool)
  | int (i : Int)
  | str (s : String)
  | list (xs : List Value)
  | smap (m : List (String × Value))
  | imap (m : List (Key × Value))

/-- Go variable of type `map[interface{}]interface{}`: the nil map of an
uninitialised variable, or an allocated map with its entries. -/
inductive GoMap where
  | nil
  | alloc (entries : List (Key × Value))

/-- Run-time panics of the Go runtime that the program can reach. -/
inductive GoPanic where
  | assignNilMap
  | indexOutOfRange
  deriving DecidableEq, Repr

/-- Map read `m[k]` on the entries of an allocated map. -/
def getEntry {κ : Type} [DecidableEq κ] : List (κ × Value) → κ → Option Value
  | [], _ => none
  | (k', v) :: rest, k => if k' = k then some v else getEntry rest k

/-- Map write `m[k] = v` on the entries of an allocated map: the entry of an
existing key is replaced, a new key gets a new entry. -/
def setEntry {κ : Type} [DecidableEq κ] : List (κ × Value) → κ → Value → List (κ × Value)
  | [], k, v => [(k, v)]
  | (k', v') :: rest, k, v =>
    if k' = k then (k, v) :: rest else (k', v') :: setEntry rest k v

/-- Go `v, exists := dest[k]`: reading a nil map finds nothing. -/
def GoMap.get : GoMap → Key → Option Value
  | .nil, _ => none
  | .alloc m, k => getEntry m k

/-- Go `dest[k] = v`: assignment to an entry of a nil map panics. -/
def GoMap.set : GoMap → Key → Value → Except GoPanic GoMap
  | .nil, _, _ => .error .assignNilMap
  | .alloc m, k, v => .ok (.alloc (setEntry m k v))

/-- Entries that `range` enumerates: none for the nil map. -/
def GoMap.entries : GoMap → List (Key × Value)
  | .nil => []
  | .alloc m => m

/-- The function `mergeValues(dest, src)` of `main.go`; `src` is given as the
enumeration of its entries that the `range` loop visits.  Each branch of the
loop body ends in a write `dest[k] = ...`, which panics on the nil map.  The
recursive call receives the allocated map `destMap` and returns that same map,
whose entries after the call are stored back at `dest[k]`. -/
def mergeValues (dest : GoMap) : List (String × Value) → Except GoPanic GoMap
  | [] => .ok dest
  | (k, v) :: rest =>
    match dest.get (.str k) with
    | none =>
      match dest.set (.str k) v with
      | .ok dest1 => mergeValues dest1 rest
      | .error e => .error e
    | some cur =>
      match v with
      | .smap nextMap =>
        match cur with
        | .imap destMap =>
          match mergeValues (.alloc destMap) nextMap with
          | .ok merged =>
            match dest.set (.str k) (.imap merged.entries) with
            | .ok dest1 => mergeValues dest1 rest
            | .error e => .error e
          | .error e => .error e
        | _ =>
          match dest.set (.str k) v with
          | .ok dest1 => mergeValues dest1 rest
          | .error e => .error e
      | _ =>
        match dest.set (.str k) v with
        | .ok dest1 => mergeValues dest1 rest
        | .error e => .error e

/-- Value that one iteration of the loop of `mergeValues` stores at a key, from
the value `cur` found there and the override `v`: the recursive merge when the
override is a `map[string]interface{}` and the current value a
`map[interface{}]interface{}`, the override itself otherwise. -/
def storedValue (merge : List (Key × Value) → List (String × Value) → List (Key × Value))
    (cur : Option Value) (v : Value) : Value :=
  match cur, v with
  | some (.imap destMap), .smap nextMap => .imap (merge destMap nextMap)
  | _, _ => v

/-- The loop of `mergeValues` on the entries of an allocated map, where no write
can panic. -/
def mergeEntries (dest : List (Key × Value)) : List (String × Value) → List (Key × Value)
  | [] => dest
  | (k, v) :: rest =>
    match getEntry dest (.str k), v with
    | some (.imap destMap), .smap nextMap =>
      mergeEntries (setEntry dest (.str k) (.imap (mergeEntries destMap nextMap))) rest
    | _, _ => mergeEntries (setEntry dest (.str k) v) rest

/-- Keys of an enumeration are pairwise distinct, also inside every nested
`map[string]interface{}`: the enumeration comes from a Go map. -/
def distinctKeys : List (String × Value) → Bool
  | [] => true
  | (k, v) :: rest =>
    (getEntry rest k).isNone
      && (match v with
          | .smap nextMap => distinctKeys nextMap
          | _ => true)
      && distinctKeys rest

/-- Two values are the same configuration tree: Go maps are compared by their
entries, whatever the order in which an enumeration lists them, at every depth. -/
inductive SameValue : Value → Value → Prop where
  | refl (v : Value) : SameValue v v
  | list (xs ys : List Value) (hlen : xs.length = ys.length)
      (hvals : ∀ (i : Nat) x y, xs[i]? = some x → ys[i]? = some y → SameValue x y) :
      SameValue (.list xs) (.list ys)
  | smap (m1 m2 : List (String × Value))
      (hkeys : ∀ k, (getEntry m1 k).isSome = (getEntry m2 k).isSome)
      (hvals : ∀ k v1 v2, getEntry m1 k = some v1 → getEntry m2 k = some v2 → SameValue v1 v2) :
      SameValue (.smap m1) (.smap m2)
  | imap (m1 m2 : List (Key × Value))
      (hkeys : ∀ k, (getEntry m1 k).isSome = (getEntry m2 k).isSome)
      (hvals : ∀ k v1 v2, getEntry m1 k = some v1 → getEntry m2 k = some v2 → SameValue v1 v2) :
      SameValue (.imap m1) (.imap m2)

/-- Two runs of the merge end the same way: the same panic, or both return the
nil map, or both return allocated maps that are the same tree. -/
def SameOutcome : Except GoPanic GoMap → Except GoPanic GoMap → Prop
  | .error p, .error q => p = q
  | .ok .nil, .ok .nil => True
  | .ok (.alloc m1), .ok (.alloc m2) => SameValue (.imap m1) (.imap m2)
  | _, _ => False

/-! ## The command -/

/-- Go `strings.Split(s, ".")` on the characters of `s`; `piece` holds, last
character first, the part of the current component read so far.  The result
has one component more than `s` has separators, so it is never empty.  (Go
splits the bytes of `s`; the separator is one ASCII byte, which is no part of a
longer UTF-8 sequence.) -/
def splitDots : List Char → List Char → List (List Char)
  | [], piece => [piece.reverse]
  | c :: cs, piece =>
    if c = '.' then piece.reverse :: splitDots cs [] else splitDots cs (c :: piece)

/-- Go `strings.Split(s, ".")`. -/
def stringsSplit (s : String) : List String :=
  (splitDots s.data []).map String.mk

/-- Release as the release-management service returns it: its name, its chart
(passed through unchanged) and the raw document of its stored configuration. -/
structure Release where
  name : String
  chart : String
  configRaw : String

/-- Policy option of the update call. -/
inductive UpdateOption where
  | resetValues
  | reuseValues
  deriving DecidableEq, Repr

/-- The collaborators of `run` that `main.go` imports: the two calls of the helm
client and the YAML codec.  `listReleases ns` is the error of the listing call
or the field `Releases` of its response.  `yamlUnmarshal raw` is the value of
the variable `base`, declared nil, after `yaml.Unmarshal([]byte(raw), &base)`,
whose error `run` drops. -/
structure Collaborators where
  listReleases : String → Except String (List Release)
  updateReleaseFromChart : String → String → String → UpdateOption → Except String Unit
  yamlUnmarshal : String → GoMap
  yamlMarshal : GoMap → String

/-- Calls that `run` issues to the release-management service. -/
inductive Call where
  | listReleases (ns : String)
  | updateReleaseFromChart (name chart values : String) (opt : UpdateOption)
  deriving DecidableEq, Repr

/-- Errors that `run` returns. -/
inductive RunError where
  | listing (cause : String)
  | update (cause : String)
  deriving DecidableEq, Repr

/-- How an invocation of `run` ends: it returns nil or an error, or the Go
runtime panics. -/
inductive Outcome where
  | returned (err : Option RunError)
  | panicked (p : GoPanic)
  deriving DecidableEq, Repr

/-- An invocation of `run`: the calls issued, in order, and how it ended. -/
structure Execution where
  calls : List Call
  outcome : Outcome
  deriving DecidableEq, Repr

/-- The method `updateConfigCommand.run` of `main.go`; `release`, `values` and
`resetValues` are the fields of the command, `values` as the enumeration that
the merge visits. -/
def run (c : Collaborators) (release : String) (values : List (String × Value))
    (resetValues : Bool) : Execution :=
  let str := stringsSplit release
  match str[0]? with
  | none => ⟨[], .panicked .indexOutOfRange⟩
  | some ns =>
    match c.listReleases ns with
    | .error err => ⟨[.listReleases ns], .returned (some (.listing err))⟩
    | .ok releases =>
      match releases[0]? with
      | none => ⟨[.listReleases ns], .panicked .indexOutOfRange⟩
      | some first =>
        let base := c.yamlUnmarshal first.configRaw
        match mergeValues base values with
        | .error p => ⟨[.listReleases ns], .panicked p⟩
        | .ok dest =>
          let opt := if resetValues then UpdateOption.resetValues else UpdateOption.reuseValues
          let newValues := c.yamlMarshal dest
          let update := Call.updateReleaseFromChart first.name first.chart newValues opt
          match c.updateReleaseFromChart first.name first.chart newValues opt with
          | .error err => ⟨[.listReleases ns, update], .returned (some (.update err))⟩
          | .ok _ => ⟨[.listReleases ns, update], .returned none⟩

/-! ## Basic facts on map reads and writes -/

theorem getEntry_setEntry_same {κ : Type} [DecidableEq κ] (m : List (κ × Value)) (k : κ)
    (v : Value) : getEntry (setEntry m k v) k = some v := by
  induction m with
  | nil => simp [setEntry, getEntry]
  | cons p m ih =>
    obtain ⟨k', v'⟩ := p
    by_cases h : k' = k
    · simp [setEntry, getEntry, h]
    · simp [setEntry, getEntry, h, ih]

theorem getEntry_setEntry_other {κ : Type} [DecidableEq κ] (m : List (κ × Value)) (k k' : κ)
    (v : Value) (h : k ≠ k') : getEntry (setEntry m k v) k' = getEntry m k' := by
  induction m with
  | nil => simp [setEntry, getEntry, h]
  | cons p m ih =>
    obtain ⟨k0, v0⟩ := p
    by_cases h0 : k0 = k
    · subst h0
      simp [setEntry, getEntry, h]
    · by_cases h1 : k0 = k'
      · rw [setEntry, if_neg h0, getEntry, if_pos h1, getEntry, if_pos h1]
      · rw [setEntry, if_neg h0, getEntry, if_neg h1, getEntry, if_neg h1, ih]

theorem setEntry_of_getEntry {κ : Type} [DecidableEq κ] (m : List (κ × Value)) (k : κ)
    (v : Value) (h : getEntry m k = some v) : setEntry m k v = m := by
  induction m with
  | nil => simp [getEntry] at h
  | cons p m ih =>
    obtain ⟨k0, v0⟩ := p
    by_cases h0 : k0 = k
    · subst h0
      simp [getEntry] at h
      simp [setEntry, h]
    · simp [getEntry, h0] at h
      simp [setEntry, h0, ih h]

theorem getEntry_eq_none_iff {κ : Type} [DecidableEq κ] (m : List (κ × Value)) (k : κ) :
    getEntry m k = none ↔ k ∉ m.map Prod.fst := by
  induction m with
  | nil => simp [getEntry]
  | cons p m ih =>
    obtain ⟨k0, v0⟩ := p
    by_cases h0 : k0 = k
    · simp [getEntry, h0]
    · rw [getEntry, if_neg h0, ih, List.map_cons, List.mem_cons, not_or]
      exact ⟨fun h => ⟨fun e => h0 e.symm, h⟩, fun h => h.2⟩

theorem mergeEntries_nil (dest : List (Key × Value)) : mergeEntries dest [] = dest := by
  simp [mergeEntries]

theorem mergeEntries_cons (dest : List (Key × Value)) (k : String) (v : Value)
    (rest : List (String × Value)) :
    mergeEntries dest ((k, v) :: rest)
      = mergeEntries
          (setEntry dest (.str k) (storedValue mergeEntries (getEntry dest (.str k)) v)) rest := by
  cases h : getEntry dest (.str k) with
  | none => simp [mergeEntries, storedValue, h]
  | some cur =>
    cases v <;> cases cur <;> simp [mergeEntries, storedValue, h]

/-! ## The merge on an allocated base and on the nil base -/

theorem sizeOf_rest_lt (k : String) (v : Value) (rest : List (String × Value)) :
    sizeOf rest < sizeOf ((k, v) :: rest) := by
  simp only [List.cons.sizeOf_spec, Prod.mk.sizeOf_spec]
  omega

theorem sizeOf_nested_lt (k : String) (nextMap rest : List (String × Value)) :
    sizeOf nextMap < sizeOf ((k, Value.smap nextMap) :: rest) := by
  simp only [List.cons.sizeOf_spec, Prod.mk.sizeOf_spec, Value.smap.sizeOf_spec]
  omega

theorem mergeValues_alloc_aux (n : Nat) :
    ∀ (src : List (String × Value)) (b : List (Key × Value)), sizeOf src < n →
      mergeValues (.alloc b) src = .ok (.alloc (mergeEntries b src)) := by
  induction n with
  | zero => intro src b h; omega
  | succ n ih =>
    intro src b hsz
    cases src with
    | nil => simp [mergeValues, mergeEntries]
    | cons p rest =>
      obtain ⟨k, v⟩ := p
      have hrest : sizeOf rest < n := by
        have := sizeOf_rest_lt k v rest
        omega
      cases hg : getEntry b (.str k) with
      | none =>
        simp [mergeValues, mergeEntries, GoMap.get, GoMap.set, hg, ih rest _ hrest]
      | some cur =>
        cases v with
        | smap nextMap =>
          have hnest : sizeOf nextMap < n := by
            have := sizeOf_nested_lt k nextMap rest
            omega
          cases cur <;>
            simp [mergeValues, mergeEntries, GoMap.get, GoMap.set, GoMap.entries, hg,
              ih rest _ hrest, ih nextMap _ hnest]
        | _ =>
          simp [mergeValues, mergeEntries, GoMap.get, GoMap.set, hg, ih rest _ hrest]

/-- On an allocated base the merge returns, and its result is the allocated map
that the loop leaves. -/
theorem mergeValues_alloc (b : List (Key × Value)) (src : List (String × Value)) :
    mergeValues (.alloc b) src = .ok (.alloc (mergeEntries b src)) :=
  mergeValues_alloc_aux (sizeOf src + 1) src b (Nat.lt_succ_self _)

/-- On the nil base the first iteration writes to the nil map. -/
theorem mergeValues_nil_cons (p : String × Value) (rest : List (String × Value)) :
    mergeValues .nil (p :: rest) = .error .assignNilMap := by
  obtain ⟨k, v⟩ := p
  simp [mergeValues, GoMap.get, GoMap.set]

theorem mergeValues_nil_nil : mergeValues .nil [] = .ok .nil := by
  simp [mergeValues]

/-- The examples of the specification: a scalar override replaces a nested map. -/
theorem mergeValues_example_scalar_over_map :
    mergeValues (.alloc [(.str "a", .imap [(.str "x", .int 1)])]) [("a", .int 5)]
      = .ok (.alloc [(.str "a", .int 5)]) := by
  simp [mergeValues, GoMap.get, GoMap.set, getEntry, setEntry]

/-- A nested-map override replaces a base value that is no map. -/
theorem mergeValues_example_map_over_scalar :
    mergeValues (.alloc [(.str "a", .int 1)]) [("a", .smap [("x", .int 1)])]
      = .ok (.alloc [(.str "a", .smap [("x", .int 1)])]) := by
  simp [mergeValues, GoMap.get, GoMap.set, getEntry, setEntry]

/-- A deep merge keeps the sibling that the override does not name. -/
theorem mergeValues_example_deep_merge :
    mergeValues (.alloc [(.str "a", .imap [(.str "x", .int 1), (.str "y", .int 2)])])
        [("a", .smap [("y", .int 9)])]
      = .ok (.alloc [(.str "a", .imap [(.str "x", .int 1), (.str "y", .int 9)])]) := by
  simp [mergeValues, GoMap.get, GoMap.set, GoMap.entries, getEntry, setEntry]

/-- The end-to-end scenario of the specification, on the merge. -/
theorem mergeValues_example_end_to_end :
    mergeValues
        (.alloc [(.str "replicas", .int 2), (.str "env", .imap [(.str "tier", .str "prod")])])
        [("replicas", .int 3), ("env", .smap [("tier", .str "canary")])]
      = .ok (.alloc [(.str "replicas", .int 3),
          (.str "env", .imap [(.str "tier", .str "canary")])]) := by
  simp [mergeValues, GoMap.get, GoMap.set, GoMap.entries, getEntry, setEntry]

/-- Keys that the overrides do not name keep their entry through the loop. -/
theorem getEntry_mergeEntries_frame (src : List (String × Value)) :
    ∀ (b : List (Key × Value)) (key : Key),
      (∀ s, key = .str s → getEntry src s = none) →
      getEntry (mergeEntries b src) key = getEntry b key := by
  induction src with
  | nil => intro b key _; rw [mergeEntries_nil]
  | cons p rest ih =>
    obtain ⟨k, v⟩ := p
    intro b key habs
    have hne : Key.str k ≠ key := by
      intro e
      have := habs k e.symm
      simp [getEntry] at this
    have hrest : ∀ s, key = .str s → getEntry rest s = none := by
      intro s hs
      have := habs s hs
      by_cases hk : k = s
      · subst hk; exact absurd hs.symm hne
      · simpa [getEntry, hk] using this
    rw [mergeEntries_cons, ih _ key hrest, getEntry_setEntry_other _ _ _ _ hne]

/-- A key that the overrides name once gets the value that its iteration stores. -/
theorem getEntry_mergeEntries_hit (src : List (String × Value)) :
    ∀ (b : List (Key × Value)) (s : String) (v : Value),
      (src.map Prod.fst).Nodup → getEntry src s = some v →
      getEntry (mergeEntries b src) (.str s)
        = some (storedValue mergeEntries (getEntry b (.str s)) v) := by
  induction src with
  | nil => intro b s v _ h; simp [getEntry] at h
  | cons p rest ih =>
    obtain ⟨k, v0⟩ := p
    intro b s v hnd hget
    rw [List.map_cons, List.nodup_cons] at hnd
    rw [mergeEntries_cons]
    by_cases hk : k = s
    · subst hk
      have hv : v0 = v := by simpa [getEntry] using hget
      subst hv
      have hnone : ∀ s', Key.str k = .str s' → getEntry rest s' = none := by
        intro s' hs'
        have : k = s' := by injection hs'
        subst this
        exact (getEntry_eq_none_iff rest k).2 hnd.1
      rw [getEntry_mergeEntries_frame rest _ _ hnone, getEntry_setEntry_same]
    · have hget' : getEntry rest s = some v := by simpa [getEntry, hk] using hget
      have hne : Key.str k ≠ Key.str s := by
        intro e; injection e with e; exact hk e
      rw [ih _ s v hnd.2 hget', getEntry_setEntry_other _ _ _ _ hne]

theorem GoMap.get_some_alloc (base : GoMap) (key : Key) (value : Value)
    (h : base.get key = some value) : ∃ b, base = .alloc b ∧ getEntry b key = some value := by
  cases base with
  | nil => simp [GoMap.get] at h
  | alloc b => exact ⟨b, rfl, h⟩

/-! ## Per-key behaviour of the merge -/

/-- C1: when the base holds a `map[interface{}]interface{}` at key `k` and the
overrides (distinct keys, also in the nested map) hold a
`map[string]interface{}` at `k`, the merge returns and its result holds at `k`
the recursive merge `merged` of the two nested maps.  That merged map is
determined key by key: a key that the nested overrides do not name keeps the
value of the nested base map; a key that they name holds the override value
itself, unless both sides hold maps there, in which case it holds their
recursive merge. -/
theorem mergeValues_recursive_at_key (base : GoMap) (overrides : List (String × Value))
    (k : String) (destMap : List (Key × Value)) (nextMap : List (String × Value))
    (hkeys : (overrides.map Prod.fst).Nodup)
    (hnested : (nextMap.map Prod.fst).Nodup)
    (hbase : base.get (.str k) = some (.imap destMap))
    (hover : getEntry overrides k = some (.smap nextMap)) :
    ∃ result merged,
      mergeValues base overrides = .ok result ∧
      mergeValues (.alloc destMap) nextMap = .ok (.alloc merged) ∧
      result.get (.str k) = some (.imap merged) ∧
      (∀ key, (∀ s, key = .str s → getEntry nextMap s = none) →
        getEntry merged key = getEntry destMap key) ∧
      (∀ s w, getEntry nextMap s = some w →
        (¬ ∃ d n, getEntry destMap (.str s) = some (.imap d) ∧ w = .smap n) →
        getEntry merged (.str s) = some w) ∧
      (∀ s d n, getEntry nextMap s = some (.smap n) →
        getEntry destMap (.str s) = some (.imap d) →
        ∃ m, mergeValues (.alloc d) n = .ok (.alloc m) ∧
          getEntry merged (.str s) = some (.imap m)) := by
  obtain ⟨b, rfl, hb⟩ := GoMap.get_some_alloc base _ _ hbase
  refine ⟨.alloc (mergeEntries b overrides), mergeEntries destMap nextMap,
    mergeValues_alloc b overrides, mergeValues_alloc destMap nextMap, ?_, ?_, ?_, ?_⟩
  · show getEntry (mergeEntries b overrides) (.str k) = _
    rw [getEntry_mergeEntries_hit overrides b k _ hkeys hover, hb]
    rfl
  · intro key hkey
    exact getEntry_mergeEntries_frame nextMap destMap key hkey
  · intro s w hw hshape
    rw [getEntry_mergeEntries_hit nextMap destMap s w hnested hw]
    cases hcur : getEntry destMap (.str s) with
    | none => cases w <;> rfl
    | some cur =>
      cases cur <;> cases w <;>
        first
          | rfl
          | exact absurd ⟨_, _, hcur, rfl⟩ hshape
  · intro s d n hn hd
    refine ⟨mergeEntries d n, mergeValues_alloc d n, ?_⟩
    rw [getEntry_mergeEntries_hit nextMap destMap s _ hnested hn, hd]
    rfl

/-- Instance of C1 on the base `{a: {x: 1, y: 2}}` and the overrides
`{a: {y: 9}}`: the result holds at `a` a map with `x: 1` kept and `y: 9`
overridden, and the merge returns `{a: {x: 1, y: 9}}`. -/
theorem mergeValues_recursive_at_key_witness :
    (∃ result merged,
      mergeValues (.alloc [(.str "a", .imap [(.str "x", .int 1), (.str "y", .int 2)])])
        [("a", .smap [("y", .int 9)])] = .ok result ∧
      result.get (.str "a") = some (.imap merged) ∧
      getEntry merged (.str "x") = some (.int 1) ∧
      getEntry merged (.str "y") = some (.int 9)) ∧
    mergeValues (.alloc [(.str "a", .imap [(.str "x", .int 1), (.str "y", .int 2)])])
        [("a", .smap [("y", .int 9)])]
      = .ok (.alloc [(.str "a", .imap [(.str "x", .int 1), (.str "y", .int 9)])]) := by
  constructor
  · obtain ⟨result, merged, hres, _, hat, hframe, hnamed, _⟩ :=
      mergeValues_recursive_at_key
        (.alloc [(.str "a", .imap [(.str "x", .int 1), (.str "y", .int 2)])])
        [("a", .smap [("y", .int 9)])] "a"
        [(.str "x", .int 1), (.str "y", .int 2)] [("y", .int 9)]
        (by decide) (by decide) (by simp [GoMap.get, getEntry]) (by simp [getEntry])
    refine ⟨result, merged, hres, hat, ?_, ?_⟩
    · rw [hframe (.str "x")]
      · simp [getEntry]
      · intro s hs
        have : "x" = s := by injection hs
        subst this
        simp [getEntry]
    · apply hnamed "y" (.int 9)
      · simp [getEntry]
      · rintro ⟨d, n, _, hn⟩
        cases hn
  · simp [mergeValues, GoMap.get, GoMap.set, GoMap.entries, getEntry, setEntry]

/-- C4: an entry of the base whose key the overrides do not name is still there,
unchanged, in the result of the merge. -/
theorem mergeValues_keeps_unnamed (base : GoMap) (overrides : List (String × Value))
    (key : Key) (value : Value)
    (hbase : base.get key = some value)
    (habsent : ∀ s, key = .str s → getEntry overrides s = none) :
    ∃ result, mergeValues base overrides = .ok result ∧ result.get key = some value := by
  obtain ⟨b, rfl, hb⟩ := GoMap.get_some_alloc base _ _ hbase
  refine ⟨.alloc (mergeEntries b overrides), mergeValues_alloc b overrides, ?_⟩
  show getEntry (mergeEntries b overrides) key = _
  rw [getEntry_mergeEntries_frame overrides b key habsent, hb]

/-- Instance of C4: `replicas` survives a merge that names only `env`. -/
theorem mergeValues_keeps_unnamed_witness :
    ∃ result,
      mergeValues (.alloc [(.str "replicas", .int 2), (.str "env", .imap [(.str "tier", .str "prod")])])
        [("env", .smap [("tier", .str "canary")])] = .ok result ∧
      result.get (.str "replicas") = some (.int 2) :=
  mergeValues_keeps_unnamed _ _ (.str "replicas") (.int 2)
    (by simp [GoMap.get, getEntry])
    (by
      intro s hs
      have : "replicas" = s := by injection hs
      subst this
      simp [getEntry])

/-- C5: when the base holds a value at key `k` and the overrides (distinct keys)
hold `v` at `k`, and it is not the case that `v` is a `map[string]interface{}`
and the base value a `map[interface{}]interface{}`, the result of the merge
holds exactly `v` at `k`. -/
theorem mergeValues_override_replaces (base : GoMap) (overrides : List (String × Value))
    (k : String) (cur v : Value)
    (hkeys : (overrides.map Prod.fst).Nodup)
    (hbase : base.get (.str k) = some cur)
    (hover : getEntry overrides k = some v)
    (hshape : ¬ ∃ destMap nextMap, cur = .imap destMap ∧ v = .smap nextMap) :
    ∃ result, mergeValues base overrides = .ok result ∧ result.get (.str k) = some v := by
  obtain ⟨b, rfl, hb⟩ := GoMap.get_some_alloc base _ _ hbase
  refine ⟨.alloc (mergeEntries b overrides), mergeValues_alloc b overrides, ?_⟩
  show getEntry (mergeEntries b overrides) (.str k) = _
  rw [getEntry_mergeEntries_hit overrides b k _ hkeys hover, hb]
  cases cur <;> cases v <;> first | rfl | exact absurd ⟨_, _, rfl, rfl⟩ hshape

/-- Instance of C5: base `{a: {x: 1}}`, overrides `{a: 5}`. -/
theorem mergeValues_override_replaces_witness :
    ∃ result,
      mergeValues (.alloc [(.str "a", .imap [(.str "x", .int 1)])]) [("a", .int 5)] = .ok result ∧
      result.get (.str "a") = some (.int 5) :=
  mergeValues_override_replaces _ _ "a" (.imap [(.str "x", .int 1)]) (.int 5)
    (by decide) (by simp [GoMap.get, getEntry]) (by simp [getEntry]) (by simp)

/-- C9: merging the empty overrides returns the base as it is, the nil base
included. -/
theorem mergeValues_empty_overrides (base : GoMap) : mergeValues base [] = .ok base := by
  simp [mergeValues]

/-- On an allocated base, a key that the base does not hold gets the value of a
one-entry overrides map, whatever the shape of the value. -/
theorem mergeValues_new_key_alloc (b : List (Key × Value)) (k : String) (v : Value)
    (habsent : getEntry b (.str k) = none) :
    ∃ result, mergeValues (.alloc b) [(k, v)] = .ok result ∧ result.get (.str k) = some v := by
  refine ⟨.alloc (mergeEntries b [(k, v)]), mergeValues_alloc b _, ?_⟩
  show getEntry (mergeEntries b [(k, v)]) (.str k) = _
  rw [getEntry_mergeEntries_hit [(k, v)] b k v (by simp) (by simp [getEntry]), habsent]
  cases v <;> rfl

/-- C6, on the nil base: every key is absent from the nil map, and the merge of
a one-entry overrides map `{k: v}` does not return a map that holds `v` at `k`:
its only iteration assigns to an entry of the nil map, and the runtime panics. -/
theorem mergeValues_new_key_nil_base (k : String) (v : Value) :
    GoMap.get .nil (.str k) = none ∧
      mergeValues .nil [(k, v)] = .error .assignNilMap ∧
      ¬ ∃ result, mergeValues .nil [(k, v)] = .ok result ∧ result.get (.str k) = some v := by
  refine ⟨rfl, mergeValues_nil_cons (k, v) [], ?_⟩
  rintro ⟨result, h, _⟩
  rw [mergeValues_nil_cons] at h
  cases h

/-! ## The release locator -/

theorem splitDots_first (cs piece : List Char) :
    (splitDots cs piece)[0]? = some (piece.reverse ++ cs.takeWhile (fun c => decide (c ≠ '.'))) := by
  induction cs generalizing piece with
  | nil => simp [splitDots]
  | cons c cs ih =>
    by_cases hc : c = '.'
    · simp [splitDots, hc]
    · simp [splitDots, hc, ih]

/-- The first component of the split always exists: it is the longest prefix
without a separator. -/
theorem stringsSplit_first (s : String) :
    (stringsSplit s)[0]? = some (String.mk (s.data.takeWhile (fun c => decide (c ≠ '.')))) := by
  simp [stringsSplit, splitDots_first]

theorem takeWhile_prefix (pre post : List Char) (hpre : '.' ∉ pre) :
    (pre ++ '.' :: post).takeWhile (fun c => decide (c ≠ '.')) = pre := by
  induction pre with
  | nil => simp
  | cons c pre ih =>
    have hc : c ≠ '.' := fun e => hpre (by simp [e])
    have hrest : '.' ∉ pre := fun h => hpre (by simp [h])
    simpa [List.takeWhile, hc] using ih hrest

theorem takeWhile_no_dot (cs : List Char) (h : '.' ∉ cs) :
    cs.takeWhile (fun c => decide (c ≠ '.')) = cs := by
  induction cs with
  | nil => simp
  | cons c cs ih =>
    have hc : c ≠ '.' := fun e => h (by simp [e])
    have hrest : '.' ∉ cs := fun h' => h (by simp [h'])
    simpa [List.takeWhile, hc] using ih hrest

/-- C7, on the nil base: with overrides that have an entry the merge returns no
map, it panics on the assignment to an entry of the nil map; so does `run` when
the YAML decoder leaves `base` nil, after the listing call and before any
update call. -/
theorem mergeValues_nil_base_panics (p : String × Value) (rest : List (String × Value))
    (c : Collaborators) (release : String) (first : Release) (others : List Release)
    (resetValues : Bool) :
    mergeValues .nil (p :: rest) = .error .assignNilMap ∧
      run { c with listReleases := fun _ => .ok (first :: others),
                   yamlUnmarshal := fun _ => .nil }
          release (p :: rest) resetValues
        = ⟨[.listReleases (String.mk (release.data.takeWhile (fun c => decide (c ≠ '.'))))],
            .panicked .assignNilMap⟩ := by
  refine ⟨mergeValues_nil_cons p rest, ?_⟩
  simp [run, stringsSplit_first, mergeValues_nil_cons]

/-- C2, on an empty listing: when the listing call succeeds with zero releases,
`run` issues the listing call and then indexes the first element of the empty
list, so the runtime panics with an index out of range; `run` returns no
error.  No update call is issued. -/
theorem run_empty_listing_panics (c : Collaborators) (release : String)
    (values : List (String × Value)) (resetValues : Bool) :
    run { c with listReleases := fun _ => .ok [] } release values resetValues
      = ⟨[.listReleases (String.mk (release.data.takeWhile (fun c => decide (c ≠ '.'))))],
          .panicked .indexOutOfRange⟩ ∧
    ∀ err, (run { c with listReleases := fun _ => .ok [] } release values resetValues).outcome
      ≠ .returned err := by
  have h : run { c with listReleases := fun _ => .ok [] } release values resetValues
      = ⟨[.listReleases (String.mk (release.data.takeWhile (fun c => decide (c ≠ '.'))))],
          .panicked .indexOutOfRange⟩ := by
    simp [run, stringsSplit_first]
  refine ⟨h, ?_⟩
  intro err
  rw [h]
  simp

/-- C8: the split of a release identifier always has a first component `ns`, and
`run` passes it to the listing call, its first call: `ns` is the part of the
identifier before its first separator, and the whole identifier when it has no
separator (the empty identifier included). -/
theorem run_namespace (c : Collaborators) (release : String)
    (values : List (String × Value)) (resetValues : Bool) :
    ∃ ns, (stringsSplit release)[0]? = some ns ∧
      (run c release values resetValues).calls.head? = some (.listReleases ns) ∧
      (∀ pre post, release.data = pre ++ '.' :: post → '.' ∉ pre → ns.data = pre) ∧
      ('.' ∉ release.data → ns = release) := by
  refine ⟨String.mk (release.data.takeWhile (fun c => decide (c ≠ '.'))),
    stringsSplit_first release, ?_, ?_, ?_⟩
  · simp only [run, stringsSplit_first]
    cases c.listReleases _ with
    | error err => rfl
    | ok releases =>
      cases releases with
      | nil => rfl
      | cons first others =>
        simp only [List.getElem?_cons_zero]
        cases mergeValues (c.yamlUnmarshal first.configRaw) values with
        | error p => rfl
        | ok dest =>
          simp only []
          split <;> rfl
  · intro pre post hsplit hpre
    show release.data.takeWhile _ = pre
    rw [hsplit, takeWhile_prefix pre post hpre]
  · intro h
    rw [takeWhile_no_dot _ h]

/-! ## Idempotence -/

theorem distinctKeys_cons (k : String) (v : Value) (rest : List (String × Value))
    (h : distinctKeys ((k, v) :: rest) = true) :
    getEntry rest k = none ∧ distinctKeys rest = true ∧
      ∀ nextMap, v = .smap nextMap → distinctKeys nextMap = true := by
  cases v <;> simp [distinctKeys] at h <;> simp [h]

theorem storedValue_again (cur : Option Value) (v : Value)
    (hrec : ∀ destMap nextMap, v = .smap nextMap →
      mergeEntries (mergeEntries destMap nextMap) nextMap = mergeEntries destMap nextMap) :
    storedValue mergeEntries (some (storedValue mergeEntries cur v)) v
      = storedValue mergeEntries cur v := by
  cases cur with
  | none => cases v <;> rfl
  | some c =>
    cases v with
    | smap nextMap =>
      cases c with
      | imap destMap =>
        show Value.imap (mergeEntries (mergeEntries destMap nextMap) nextMap) = _
        rw [hrec destMap nextMap rfl]
        rfl
      | _ => rfl
    | _ => cases c <;> rfl

theorem mergeEntries_idem_aux (n : Nat) :
    ∀ (src : List (String × Value)) (b : List (Key × Value)), sizeOf src < n →
      distinctKeys src = true →
      mergeEntries (mergeEntries b src) src = mergeEntries b src := by
  induction n with
  | zero => intro src b h; omega
  | succ n ih =>
    intro src b hsz hd
    cases src with
    | nil => simp [mergeEntries_nil]
    | cons p rest =>
      obtain ⟨k, v⟩ := p
      obtain ⟨hnone, hdrest, hdnest⟩ := distinctKeys_cons k v rest hd
      have hrest : sizeOf rest < n := by
        have := sizeOf_rest_lt k v rest
        omega
      have hrec : ∀ destMap nextMap, v = .smap nextMap →
          mergeEntries (mergeEntries destMap nextMap) nextMap = mergeEntries destMap nextMap := by
        intro destMap nextMap hv
        subst hv
        have hnest : sizeOf nextMap < n := by
          have := sizeOf_nested_lt k nextMap rest
          omega
        exact ih nextMap destMap hnest (hdnest nextMap rfl)
      have hframe : ∀ s, Key.str k = .str s → getEntry rest s = none := by
        intro s hs
        have : k = s := by injection hs
        subst this
        exact hnone
      rw [mergeEntries_cons b k v rest]
      generalize hw : storedValue mergeEntries (getEntry b (.str k)) v = w
      have hget : getEntry (mergeEntries (setEntry b (.str k) w) rest) (.str k) = some w := by
        rw [getEntry_mergeEntries_frame rest _ _ hframe, getEntry_setEntry_same]
      rw [mergeEntries_cons, hget]
      have hsame : storedValue mergeEntries (some w) v = w := by
        rw [← hw]
        exact storedValue_again _ v hrec
      rw [hsame, setEntry_of_getEntry _ _ _ hget]
      exact ih rest _ hrest hdrest

theorem mergeEntries_idem (src : List (String × Value)) (b : List (Key × Value))
    (hd : distinctKeys src = true) :
    mergeEntries (mergeEntries b src) src = mergeEntries b src :=
  mergeEntries_idem_aux (sizeOf src + 1) src b (Nat.lt_succ_self _) hd

/-- C3: merging the same overrides (distinct keys at every depth, values of any
shape) a second time into the outcome of the first merge changes nothing: the
second merge returns the map the first one returned, and where the first merge
panics there is no second one.  On an allocated base both merges return. -/
theorem mergeValues_idempotent (base : GoMap) (overrides : List (String × Value))
    (hd : distinctKeys overrides = true) :
    (mergeValues base overrides).bind (fun merged => mergeValues merged overrides)
        = mergeValues base overrides ∧
      ∀ b, base = .alloc b →
        ∃ merged, mergeValues base overrides = .ok (.alloc merged) ∧
          mergeValues (.alloc merged) overrides = .ok (.alloc merged) := by
  constructor
  · cases base with
    | nil =>
      cases overrides with
      | nil => simp [mergeValues_nil_nil, Except.bind]
      | cons p rest => simp [mergeValues_nil_cons, Except.bind]
    | alloc b =>
      rw [mergeValues_alloc b overrides]
      show mergeValues (.alloc (mergeEntries b overrides)) overrides = _
      rw [mergeValues_alloc, mergeEntries_idem overrides b hd]
  · intro b hb
    subst hb
    refine ⟨mergeEntries b overrides, mergeValues_alloc b overrides, ?_⟩
    rw [mergeValues_alloc, mergeEntries_idem overrides b hd]

/-- Instance of C3 on the stored configuration `{replicas: 2, env: {tier: prod}}`
and the overrides `{replicas: 3, env: {tier: canary}, extra: {x: 1}}`. -/
theorem mergeValues_idempotent_witness :
    ∃ merged,
      mergeValues
        (.alloc [(.str "replicas", .int 2), (.str "env", .imap [(.str "tier", .str "prod")])])
        [("replicas", .int 3), ("env", .smap [("tier", .str "canary")]),
         ("extra", .smap [("x", .int 1)])] = .ok (.alloc merged) ∧
      mergeValues (.alloc merged)
        [("replicas", .int 3), ("env", .smap [("tier", .str "canary")]),
         ("extra", .smap [("x", .int 1)])] = .ok (.alloc merged) :=
  (mergeValues_idempotent _ _ (by simp [distinctKeys, getEntry])).2 _ rfl

/-! ## Independence of the enumeration order -/

theorem distinctKeys_nodup (src : List (String × Value)) (hd : distinctKeys src = true) :
    (src.map Prod.fst).Nodup := by
  induction src with
  | nil => simp
  | cons p rest ih =>
    obtain ⟨k, v⟩ := p
    obtain ⟨hnone, hdrest, _⟩ := distinctKeys_cons k v rest hd
    rw [List.map_cons, List.nodup_cons]
    exact ⟨(getEntry_eq_none_iff rest k).1 hnone, ih hdrest⟩

theorem distinctKeys_nested (src : List (String × Value)) (hd : distinctKeys src = true)
    (s : String) (nextMap : List (String × Value))
    (hget : getEntry src s = some (.smap nextMap)) :
    distinctKeys nextMap = true ∧ sizeOf nextMap < sizeOf src := by
  induction src with
  | nil => simp [getEntry] at hget
  | cons p rest ih =>
    obtain ⟨k, v⟩ := p
    obtain ⟨_, hdrest, hdnest⟩ := distinctKeys_cons k v rest hd
    by_cases hk : k = s
    · have hv : v = .smap nextMap := by simpa [getEntry, hk] using hget
      subst hv
      exact ⟨hdnest nextMap rfl, sizeOf_nested_lt k nextMap rest⟩
    · have hget' : getEntry rest s = some (.smap nextMap) := by
        simpa [getEntry, hk] using hget
      obtain ⟨h1, h2⟩ := ih hdrest hget'
      exact ⟨h1, Nat.lt_trans h2 (sizeOf_rest_lt k v rest)⟩

theorem SameValue.smap_entries (m1 m2 : List (String × Value))
    (h : SameValue (.smap m1) (.smap m2)) :
    (∀ k, (getEntry m1 k).isSome = (getEntry m2 k).isSome) ∧
      ∀ k v1 v2, getEntry m1 k = some v1 → getEntry m2 k = some v2 → SameValue v1 v2 := by
  cases h with
  | refl =>
    refine ⟨fun _ => rfl, ?_⟩
    intro k v1 v2 h1 h2
    rw [h1] at h2
    cases h2
    exact SameValue.refl v1
  | smap _ _ hkeys hvals => exact ⟨hkeys, hvals⟩

theorem storedValue_same (cur : Option Value) (v1 v2 : Value) (h : SameValue v1 v2)
    (hrec : ∀ destMap n1 n2, v1 = .smap n1 → v2 = .smap n2 →
      SameValue (.imap (mergeEntries destMap n1)) (.imap (mergeEntries destMap n2))) :
    SameValue (storedValue mergeEntries cur v1) (storedValue mergeEntries cur v2) := by
  cases cur with
  | none =>
    have e : ∀ v, storedValue mergeEntries none v = v := by intro v; cases v <;> rfl
    rw [e, e]
    exact h
  | some c =>
    cases h with
    | refl => exact SameValue.refl _
    | list xs ys hlen hvals =>
      have e : ∀ zs, storedValue mergeEntries (some c) (.list zs) = .list zs := by
        intro zs; cases c <;> rfl
      rw [e, e]
      exact SameValue.list xs ys hlen hvals
    | imap m1 m2 hkeys hvals =>
      have e : ∀ m, storedValue mergeEntries (some c) (.imap m) = .imap m := by
        intro m; cases c <;> rfl
      rw [e, e]
      exact SameValue.imap m1 m2 hkeys hvals
    | smap n1 n2 hkeys hvals =>
      cases c with
      | imap destMap => exact hrec destMap n1 n2 rfl rfl
      | _ => exact SameValue.smap n1 n2 hkeys hvals

theorem getEntry_mergeEntries_nonstr (src : List (String × Value)) (b : List (Key × Value))
    (key : Key) (hkey : ∀ s, key ≠ .str s) :
    getEntry (mergeEntries b src) key = getEntry b key :=
  getEntry_mergeEntries_frame src b key (fun s hs => absurd hs (hkey s))

theorem getEntry_mergeEntries_none (src : List (String × Value)) (b : List (Key × Value))
    (s : String) (hnone : getEntry src s = none) :
    getEntry (mergeEntries b src) (.str s) = getEntry b (.str s) := by
  apply getEntry_mergeEntries_frame
  intro s' hs'
  have : s = s' := by injection hs'
  subst this
  exact hnone

theorem mergeEntries_same_aux (n : Nat) :
    ∀ (ov1 ov2 : List (String × Value)) (b : List (Key × Value)), sizeOf ov1 < n →
      distinctKeys ov1 = true → distinctKeys ov2 = true →
      SameValue (.smap ov1) (.smap ov2) →
      SameValue (.imap (mergeEntries b ov1)) (.imap (mergeEntries b ov2)) := by
  induction n with
  | zero => intro ov1 ov2 b h; omega
  | succ n ih =>
    intro ov1 ov2 b hsz hd1 hd2 hsame
    obtain ⟨hkeys, hvals⟩ := SameValue.smap_entries ov1 ov2 hsame
    have hnd1 := distinctKeys_nodup ov1 hd1
    have hnd2 := distinctKeys_nodup ov2 hd2
    -- the entry of the result at a key named by both enumerations
    have hhit : ∀ s v1 v2, getEntry ov1 s = some v1 → getEntry ov2 s = some v2 →
        SameValue (storedValue mergeEntries (getEntry b (.str s)) v1)
          (storedValue mergeEntries (getEntry b (.str s)) v2) := by
      intro s v1 v2 h1 h2
      apply storedValue_same _ v1 v2 (hvals s v1 v2 h1 h2)
      intro destMap n1 n2 e1 e2
      subst e1 e2
      obtain ⟨hdn1, hlt⟩ := distinctKeys_nested ov1 hd1 s n1 h1
      obtain ⟨hdn2, _⟩ := distinctKeys_nested ov2 hd2 s n2 h2
      exact ih n1 n2 destMap (by omega) hdn1 hdn2 (hvals s _ _ h1 h2)
    apply SameValue.imap
    · intro key
      cases key with
      | str s =>
        have hk := hkeys s
        cases h1 : getEntry ov1 s with
        | none =>
          cases h2 : getEntry ov2 s with
          | none =>
            rw [getEntry_mergeEntries_none ov1 b s h1, getEntry_mergeEntries_none ov2 b s h2]
          | some v2 => rw [h1, h2] at hk; cases hk
        | some v1 =>
          cases h2 : getEntry ov2 s with
          | none => rw [h1, h2] at hk; cases hk
          | some v2 =>
            rw [getEntry_mergeEntries_hit ov1 b s v1 hnd1 h1,
              getEntry_mergeEntries_hit ov2 b s v2 hnd2 h2]
            rfl
      | int i =>
        rw [getEntry_mergeEntries_nonstr ov1 b _ (by intro s h; cases h),
          getEntry_mergeEntries_nonstr ov2 b _ (by intro s h; cases h)]
      | bool x =>
        rw [getEntry_mergeEntries_nonstr ov1 b _ (by intro s h; cases h),
          getEntry_mergeEntries_nonstr ov2 b _ (by intro s h; cases h)]
      | null =>
        rw [getEntry_mergeEntries_nonstr ov1 b _ (by intro s h; cases h),
          getEntry_mergeEntries_nonstr ov2 b _ (by intro s h; cases h)]
    · intro key w1 w2 hw1 hw2
      have hsamekey : ∀ (hb1 : getEntry (mergeEntries b ov1) key = getEntry b key)
          (hb2 : getEntry (mergeEntries b ov2) key = getEntry b key), SameValue w1 w2 := by
        intro hb1 hb2
        rw [hb1] at hw1
        rw [hb2, hw1] at hw2
        cases hw2
        exact SameValue.refl w1
      cases key with
      | str s =>
        have hk := hkeys s
        cases h1 : getEntry ov1 s with
        | none =>
          cases h2 : getEntry ov2 s with
          | none =>
            exact hsamekey (getEntry_mergeEntries_none ov1 b s h1)
              (getEntry_mergeEntries_none ov2 b s h2)
          | some v2 => rw [h1, h2] at hk; cases hk
        | some v1 =>
          cases h2 : getEntry ov2 s with
          | none => rw [h1, h2] at hk; cases hk
          | some v2 =>
            rw [getEntry_mergeEntries_hit ov1 b s v1 hnd1 h1] at hw1
            rw [getEntry_mergeEntries_hit ov2 b s v2 hnd2 h2] at hw2
            cases hw1
            cases hw2
            exact hhit s v1 v2 h1 h2
      | int i =>
        exact hsamekey (getEntry_mergeEntries_nonstr ov1 b _ (by intro s h; cases h))
          (getEntry_mergeEntries_nonstr ov2 b _ (by intro s h; cases h))
      | bool x =>
        exact hsamekey (getEntry_mergeEntries_nonstr ov1 b _ (by intro s h; cases h))
          (getEntry_mergeEntries_nonstr ov2 b _ (by intro s h; cases h))
      | null =>
        exact hsamekey (getEntry_mergeEntries_nonstr ov1 b _ (by intro s h; cases h))
          (getEntry_mergeEntries_nonstr ov2 b _ (by intro s h; cases h))

theorem mergeEntries_same (ov1 ov2 : List (String × Value)) (b : List (Key × Value))
    (hd1 : distinctKeys ov1 = true) (hd2 : distinctKeys ov2 = true)
    (hsame : SameValue (.smap ov1) (.smap ov2)) :
    SameValue (.imap (mergeEntries b ov1)) (.imap (mergeEntries b ov2)) :=
  mergeEntries_same_aux (sizeOf ov1 + 1) ov1 ov2 b (Nat.lt_succ_self _) hd1 hd2 hsame

/-- Two entries listed in either order make the same map. -/
theorem SameValue.smap_swap (k1 k2 : String) (a1 a2 b1 b2 : Value) (hne : k1 ≠ k2)
    (ha : SameValue a1 a2) (hb : SameValue b1 b2) :
    SameValue (.smap [(k1, a1), (k2, b1)]) (.smap [(k2, b2), (k1, a2)]) := by
  apply SameValue.smap
  · intro k
    by_cases h1 : k1 = k
    · have h2 : ¬ k2 = k := fun e => hne (h1.trans e.symm)
      simp [getEntry, h1, h2]
    · by_cases h2 : k2 = k
      · simp [getEntry, h1, h2]
      · simp [getEntry, h1, h2]
  · intro k v1 v2 hv1 hv2
    by_cases h1 : k1 = k
    · have h2 : ¬ k2 = k := fun e => hne (h1.trans e.symm)
      simp [getEntry, h1, h2] at hv1 hv2
      subst hv1 hv2
      exact ha
    · by_cases h2 : k2 = k
      · simp [getEntry, h1, h2] at hv1 hv2
        subst hv1 hv2
        exact hb
      · simp [getEntry, h1, h2] at hv1

/-- C10: for every base and any two enumerations of the same overrides map (keys
distinct at every depth, nested maps enumerated in any order too), the two
merges end the same way: both return the same map, compared as Go maps, or
both panic on the nil base. -/
theorem mergeValues_order_independent (base : GoMap) (ov1 ov2 : List (String × Value))
    (hd1 : distinctKeys ov1 = true) (hd2 : distinctKeys ov2 = true)
    (hsame : SameValue (.smap ov1) (.smap ov2)) :
    SameOutcome (mergeValues base ov1) (mergeValues base ov2) := by
  cases base with
  | alloc b =>
    rw [mergeValues_alloc, mergeValues_alloc]
    exact mergeEntries_same ov1 ov2 b hd1 hd2 hsame
  | nil =>
    obtain ⟨hkeys, _⟩ := SameValue.smap_entries ov1 ov2 hsame
    cases ov1 with
    | nil =>
      cases ov2 with
      | nil => rw [mergeValues_nil_nil]; trivial
      | cons p rest =>
        have := hkeys p.1
        simp [getEntry] at this
    | cons p rest =>
      cases ov2 with
      | nil =>
        have := hkeys p.1
        simp [getEntry] at this
      | cons q rest2 =>
        rw [mergeValues_nil_cons, mergeValues_nil_cons]
        rfl

/-- Instance of C10: the overrides `{replicas: 3, env: {tier: canary, zone: b}}`
enumerated in two orders, at both depths, merged into the stored configuration
`{replicas: 2, env: {tier: prod}}`. -/
theorem mergeValues_order_independent_witness :
    SameOutcome
      (mergeValues
        (.alloc [(.str "replicas", .int 2), (.str "env", .imap [(.str "tier", .str "prod")])])
        [("replicas", .int 3), ("env", .smap [("tier", .str "canary"), ("zone", .str "b")])])
      (mergeValues
        (.alloc [(.str "replicas", .int 2), (.str "env", .imap [(.str "tier", .str "prod")])])
        [("env", .smap [("zone", .str "b"), ("tier", .str "canary")]), ("replicas", .int 3)]) :=
  mergeValues_order_independent _ _ _
    (by simp [distinctKeys, getEntry]) (by simp [distinctKeys, getEntry])
    (SameValue.smap_swap "replicas" "env" _ _ _ _ (by decide) (SameValue.refl _)
      (SameValue.smap_swap "tier" "zone" _ _ _ _ (by decide) (SameValue.refl _)
        (SameValue.refl _)))

end HelmUpdateConfig
